import Mathlib

/-!
Verification of the hash-chain ledger (`Blockchain/blockchain.py`) and the
deterministic canonicalizer (`ETL.py`) of the ETL data-integrity project.

The blockchain is embedded shallowly.  SHA-256 composed with the JSON
serialization of the five hashed block fields is treated as an abstract
function `H : BlockFields → String`; every theorem about the chain is
proved for an arbitrary such `H` (so in particular for the real one), and
concrete instances are evaluated with an explicit executable `exH`.
Python's unbounded integers become `Nat`; the block timestamp (a positive
`time.time()` float in the source) is modelled as a `Nat`, with the
source's truthiness test `timestamp or time.time()` modelled by the Python
falsiness of `0`.  The proof-of-work loop, which the source runs without a
bound, is modelled with explicit fuel and an `Option` result: `some` is
exactly "the loop terminated within `fuel` iterations".
-/

namespace ETLChain

/-- The five fields hashed by `Block.calculate_hash`: `index`, `data`,
`previous_hash`, `timestamp`, `nonce`.  The payload dict is modelled by its
(deterministic, `sort_keys=True`) JSON serialization, an opaque string. -/
structure BlockFields where
  index : Nat
  data : String
  previous_hash : String
  timestamp : Nat
  nonce : Nat
deriving DecidableEq

/-- Abstract hash function: `sha256(json.dumps({...}, sort_keys=True))` as one
opaque map from the five hashed fields to a hex-digest string. -/
abbrev HashFn := BlockFields → String

/-- A `Block` object: the five hashed fields plus the stored `hash` field. -/
structure Block where
  index : Nat
  data : String
  previous_hash : String
  timestamp : Nat
  nonce : Nat
  hash : String
deriving DecidableEq, Inhabited

/-- The hashed-field projection of a block (the five-field dict built inside
`calculate_hash`; the stored `hash` field is not part of it). -/
def Block.fields (b : Block) : BlockFields :=
  ⟨b.index, b.data, b.previous_hash, b.timestamp, b.nonce⟩

/-- Source `Block.calculate_hash`: hash of the five fields of the block. -/
def Block.calculate_hash (H : HashFn) (b : Block) : String :=
  H b.fields

/-- Source `Block.__init__`: stores the fields, replaces a falsy timestamp
(`None` or `0`, via `timestamp or time.time()`) by the current time `now`,
starts `nonce` at `0` and seals `hash := calculate_hash()`. -/
def Block.init (H : HashFn) (index : Nat) (data : String) (previous_hash : String)
    (timestamp : Option Nat) (now : Nat) : Block :=
  let ts : Nat :=
    match timestamp with
    | some t => if t = 0 then now else t
    | none => now
  let b : Block := ⟨index, data, previous_hash, ts, 0, ""⟩
  { b with hash := Block.calculate_hash H b }

/-- The mining target test `self.hash[:difficulty] == "0" * difficulty`. -/
def hashOK (difficulty : Nat) (s : String) : Bool :=
  s.data.take difficulty == List.replicate difficulty '0'

/-- One iteration of the mining loop body: `self.nonce += 1` followed by
`self.hash = self.calculate_hash()`. -/
def Block.mineStep (H : HashFn) (b : Block) : Block :=
  let b2 : Block := { b with nonce := b.nonce + 1 }
  { b2 with hash := Block.calculate_hash H b2 }

/-- Source `Block.mine_block`: `while self.hash[:difficulty] != "0"*difficulty`
run `mineStep`.  The unbounded source loop is modelled with fuel: the result
is `some` exactly when the loop stops within `fuel` iterations. -/
def Block.mine_block (H : HashFn) (difficulty : Nat) (b : Block) : Nat → Option Block
  | 0 => if hashOK difficulty b.hash then some b else none
  | fuel + 1 =>
    if hashOK difficulty b.hash then some b
    else Block.mine_block H difficulty (Block.mineStep H b) fuel

/-- The proof-of-work search terminates on block `b` at difficulty `d`. -/
def minesTerminates (H : HashFn) (d : Nat) (b : Block) : Prop :=
  ∃ fuel b2, Block.mine_block H d b fuel = some b2

/-- The blockchain object: the list of blocks and the chain difficulty. -/
structure ETLBlockchain where
  chain : List Block
  difficulty : Nat
deriving DecidableEq

/-- Source `ETLBlockchain.create_genesis_block`: builds `Block(0, data, "0")`
and mines it at the chain difficulty.  The genesis payload dict (which embeds
the construction wall-clock time) is the opaque string `gdata`. -/
def ETLBlockchain.create_genesis_block (H : HashFn) (difficulty : Nat)
    (gdata : String) (now fuel : Nat) : Option Block :=
  Block.mine_block H difficulty (Block.init H 0 gdata "0" none now) fuel

/-- Source `ETLBlockchain.__init__`: difficulty 4, then the mined genesis
block becomes the whole chain. -/
def ETLBlockchain.init (H : HashFn) (gdata : String) (now fuel : Nat) :
    Option ETLBlockchain :=
  match ETLBlockchain.create_genesis_block H 4 gdata now fuel with
  | none => none
  | some g => some ⟨[g], 4⟩

/-- Source `ETLBlockchain.get_latest_block`: `self.chain[-1]` (raises on an
empty chain, hence `Option`). -/
def ETLBlockchain.get_latest_block (bc : ETLBlockchain) : Option Block :=
  bc.chain.getLast?

/-- Source `ETLBlockchain.add_etl_data_block`: builds a block with
`index = len(self.chain)` and `previous_hash = get_latest_block().hash`,
mines it at the chain difficulty and appends it.  The payload dict built from
the ETL hashes and metadata is the opaque string `data`. -/
def ETLBlockchain.add_etl_data_block (H : HashFn) (bc : ETLBlockchain)
    (data : String) (now fuel : Nat) : Option ETLBlockchain :=
  match bc.chain.getLast? with
  | none => none
  | some latest =>
    match Block.mine_block H bc.difficulty
        (Block.init H bc.chain.length data latest.hash none now) fuel with
    | none => none
    | some b => some { bc with chain := bc.chain ++ [b] }

/-- The two checks of one `is_chain_valid` loop iteration on
`(previous_block, current_block)`: stored hash equals recomputed hash, and
`previous_hash` equals the previous block's stored hash. -/
def blockPairOK (H : HashFn) (prev cur : Block) : Bool :=
  (cur.hash == Block.calculate_hash H cur) && (cur.previous_hash == prev.hash)

/-- The validation loop from block `prev` over the remaining blocks. -/
def validFrom (H : HashFn) (prev : Block) : List Block → Bool
  | [] => true
  | b :: bs => blockPairOK H prev b && validFrom H b bs

/-- Source `ETLBlockchain.is_chain_valid` on a chain list: for `i` in
`range(1, len(chain))` check `blockPairOK chain[i-1] chain[i]`; `True` iff no
check fails. -/
def ETLBlockchain.is_chain_valid (H : HashFn) (chain : List Block) : Bool :=
  match chain with
  | [] => true
  | b :: bs => validFrom H b bs

/-- The validation loop with its loop counter: the index printed (and the
point of `return False`) at the first failing check. -/
def firstBadAux (H : HashFn) (prev : Block) : List Block → Nat → Option Nat
  | [], _ => none
  | b :: bs, i => if blockPairOK H prev b then firstBadAux H b bs (i + 1) else some i

/-- The index at which `is_chain_valid` returns `False` (the index its
`print` reports), `none` when the whole scan passes. -/
def firstBad (H : HashFn) : List Block → Option Nat
  | [] => none
  | b :: bs => firstBadAux H b bs 1

/-- Whether the `is_chain_valid` check pair at chain index `i ≥ 1` fails. -/
def badAt (H : HashFn) (chain : List Block) (i : Nat) : Bool :=
  ! blockPairOK H (chain.getD (i - 1) default) (chain.getD i default)

/-- A serialized block: the six-field dict of `Block.to_dict`. -/
structure BlockDict where
  index : Nat
  data : String
  previous_hash : String
  timestamp : Nat
  nonce : Nat
  hash : String
deriving DecidableEq

/-- Source `Block.to_dict`. -/
def Block.to_dict (b : Block) : BlockDict :=
  ⟨b.index, b.data, b.previous_hash, b.timestamp, b.nonce, b.hash⟩

/-- The JSON document written by `save_blockchain`: the block array plus the
metadata object. -/
structure SavedChain where
  blockchain : List BlockDict
  total_blocks : Nat
  difficulty : Nat
  created_at : String
deriving DecidableEq

/-- Source `ETLBlockchain.save_blockchain` (minus file I/O): the serialized
JSON document. -/
def ETLBlockchain.save_blockchain (bc : ETLBlockchain) (created_at : String) :
    SavedChain :=
  ⟨bc.chain.map Block.to_dict, bc.chain.length, bc.difficulty, created_at⟩

/-- One iteration of the `load_blockchain` loop: rebuild the block through
`Block(...)` (which recomputes a hash and applies the falsy-timestamp
default), then overwrite `nonce` and `hash` verbatim from the file. -/
def loadBlock (H : HashFn) (bd : BlockDict) (now : Nat) : Block :=
  let b := Block.init H bd.index bd.data bd.previous_hash (some bd.timestamp) now
  { b with nonce := bd.nonce, hash := bd.hash }

/-- Source `ETLBlockchain.load_blockchain` (minus file I/O): the chain list
rebuilt from the JSON document. -/
def ETLBlockchain.load_blockchain (H : HashFn) (saved : SavedChain) (now : Nat) :
    List Block :=
  saved.blockchain.map (fun bd => loadBlock H bd now)

/-- Executable sample hash function used to evaluate the development on
concrete inputs: an injective-by-construction tagged rendering of the five
fields, prefixed with four `'0'` so difficulty-4 mining succeeds at once.
Numbers are rendered in unary to keep kernel evaluation elementary. -/
def natStr (n : Nat) : String :=
  String.mk (List.replicate n 'x')

/-- Sample executable hash function (see `natStr`). -/
def exH : HashFn := fun f =>
  "0000" ++ f.data ++ "|" ++ f.previous_hash ++ "|" ++ natStr f.index ++ "|" ++
    natStr f.timestamp ++ "|" ++ natStr f.nonce

/-- Sample hash function whose digests all have length 64, like a real
SHA-256 hex digest. -/
def exH64 : HashFn := fun _ => String.mk (List.replicate 64 '1')

/-- The recomputed hash of block `b` with its nonce replaced by `n` (the
value `calculate_hash` returns once `self.nonce` is set to `n`). -/
def calcAt (H : HashFn) (b : Block) (n : Nat) : String :=
  H ⟨b.index, b.data, b.previous_hash, b.timestamp, n⟩

theorem calculate_hash_eq_calcAt (H : HashFn) (b : Block) :
    Block.calculate_hash H b = calcAt H b b.nonce := rfl

theorem calcAt_congr (H : HashFn) {a b : Block} (h1 : a.index = b.index)
    (h2 : a.data = b.data) (h3 : a.previous_hash = b.previous_hash)
    (h4 : a.timestamp = b.timestamp) (n : Nat) : calcAt H a n = calcAt H b n := by
  simp [calcAt, h1, h2, h3, h4]

theorem mineStep_hash (H : HashFn) (b : Block) :
    (Block.mineStep H b).hash = calcAt H b (b.nonce + 1) := rfl

theorem init_nonce (H : HashFn) (i : Nat) (dt p : String) (ts : Option Nat) (now : Nat) :
    (Block.init H i dt p ts now).nonce = 0 := by
  cases ts <;> rfl

theorem init_hash (H : HashFn) (i : Nat) (dt p : String) (ts : Option Nat) (now : Nat) :
    (Block.init H i dt p ts now).hash =
      Block.calculate_hash H (Block.init H i dt p ts now) := by
  cases ts <;> rfl

theorem init_index (H : HashFn) (i : Nat) (dt p : String) (ts : Option Nat) (now : Nat) :
    (Block.init H i dt p ts now).index = i := by
  cases ts <;> rfl

theorem init_data (H : HashFn) (i : Nat) (dt p : String) (ts : Option Nat) (now : Nat) :
    (Block.init H i dt p ts now).data = dt := by
  cases ts <;> rfl

theorem init_previous_hash (H : HashFn) (i : Nat) (dt p : String) (ts : Option Nat)
    (now : Nat) : (Block.init H i dt p ts now).previous_hash = p := by
  cases ts <;> rfl

/-- Full specification of one `mine_block` run that stopped: the four static
fields are untouched; either the stored hash already met the target and the
block is returned unchanged, or the nonce has strictly increased to the first
later value whose recomputed hash meets the target, and the stored hash is
that recomputed hash. -/
theorem mine_block_spec (H : HashFn) (d : Nat) :
    ∀ (fuel : Nat) (b b' : Block), Block.mine_block H d b fuel = some b' →
      b'.index = b.index ∧ b'.data = b.data ∧ b'.previous_hash = b.previous_hash ∧
      b'.timestamp = b.timestamp ∧
      ((hashOK d b.hash = true ∧ b' = b) ∨
        (hashOK d b.hash = false ∧ b.nonce < b'.nonce ∧
          b'.hash = calcAt H b b'.nonce ∧ hashOK d b'.hash = true ∧
          ∀ m, b.nonce < m → m < b'.nonce → hashOK d (calcAt H b m) = false)) := by
  intro fuel
  induction fuel with
  | zero =>
    intro b b' h
    by_cases hb : hashOK d b.hash = true
    · simp only [Block.mine_block, hb, if_true, Option.some.injEq] at h
      subst h
      exact ⟨rfl, rfl, rfl, rfl, Or.inl ⟨hb, rfl⟩⟩
    · simp [Block.mine_block, hb] at h
  | succ n ih =>
    intro b b' h
    by_cases hb : hashOK d b.hash = true
    · simp only [Block.mine_block, hb, if_true, Option.some.injEq] at h
      subst h
      exact ⟨rfl, rfl, rfl, rfl, Or.inl ⟨hb, rfl⟩⟩
    · simp only [Block.mine_block, hb, if_false, Bool.false_eq_true] at h
      obtain ⟨h1, h2, h3, h4, hcase⟩ := ih (Block.mineStep H b) b' h
      have hstep1 : (Block.mineStep H b).index = b.index := rfl
      have hstep2 : (Block.mineStep H b).data = b.data := rfl
      have hstep3 : (Block.mineStep H b).previous_hash = b.previous_hash := rfl
      have hstep4 : (Block.mineStep H b).timestamp = b.timestamp := rfl
      have hstepn : (Block.mineStep H b).nonce = b.nonce + 1 := rfl
      have hcalc : ∀ m, calcAt H (Block.mineStep H b) m = calcAt H b m := fun m => rfl
      refine ⟨h1.trans hstep1, h2.trans hstep2, h3.trans hstep3, h4.trans hstep4, Or.inr ?_⟩
      rcases hcase with ⟨hOK, rfl⟩ | ⟨hnot, hlt, hhash, hOK, hmin⟩
      · refine ⟨by simpa using hb, ?_, ?_, hOK, ?_⟩
        · rw [hstepn]; omega
        · rw [mineStep_hash, hstepn]
        · intro m hm1 hm2
          rw [hstepn] at hm2
          omega
      · refine ⟨by simpa using hb, ?_, ?_, hOK, ?_⟩
        · rw [hstepn] at hlt; omega
        · rw [hhash, hcalc]
        · intro m hm1 hm2
          rcases Nat.lt_or_ge m (b.nonce + 1) with hm | hm
          · omega
          · rcases Nat.eq_or_lt_of_le hm with hm' | hm'
            · have : calcAt H b m = (Block.mineStep H b).hash := by
                rw [mineStep_hash, ← hm']
              rw [this]
              simpa using hnot
            · have := hmin m (by rw [hstepn]; omega) hm2
              rwa [hcalc] at this

/-- A block returned by `mine_block` meets the mining target. -/
theorem mine_block_hashOK (H : HashFn) (d fuel : Nat) (b b' : Block)
    (h : Block.mine_block H d b fuel = some b') : hashOK d b'.hash = true := by
  obtain ⟨-, -, -, -, hcase⟩ := mine_block_spec H d fuel b b' h
  rcases hcase with ⟨hOK, rfl⟩ | ⟨-, -, -, hOK, -⟩ <;> exact hOK

/-- Mining preserves the stored-hash-equals-recomputed-hash invariant. -/
theorem mine_block_calc (H : HashFn) (d fuel : Nat) (b b' : Block)
    (h : Block.mine_block H d b fuel = some b')
    (hb : b.hash = Block.calculate_hash H b) :
    b'.hash = Block.calculate_hash H b' := by
  obtain ⟨h1, h2, h3, h4, hcase⟩ := mine_block_spec H d fuel b b' h
  rcases hcase with ⟨-, rfl⟩ | ⟨-, -, hhash, -, -⟩
  · exact hb
  · rw [hhash, calculate_hash_eq_calcAt]
    exact (calcAt_congr H h1 h2 h3 h4 b'.nonce).symm

/-- Mining never decreases the nonce. -/
theorem mine_block_nonce_le (H : HashFn) (d fuel : Nat) (b b' : Block)
    (h : Block.mine_block H d b fuel = some b') : b.nonce ≤ b'.nonce := by
  obtain ⟨-, -, -, -, hcase⟩ := mine_block_spec H d fuel b b' h
  rcases hcase with ⟨-, rfl⟩ | ⟨-, hlt, -, -, -⟩
  · exact Nat.le_refl _
  · exact Nat.le_of_lt hlt

/-- Last element of a list, with default for the empty list. -/
def lastOr {α : Type} (l : List α) (d : α) : α :=
  match l with
  | [] => d
  | x :: xs => lastOr xs x

theorem getLast?_cons_eq {α : Type} (c : α) :
    ∀ cs : List α, (c :: cs).getLast? = some (lastOr cs c)
  | [] => rfl
  | x :: xs => by
    rw [List.getLast?_cons_cons, getLast?_cons_eq x xs]
    rfl

/-- Appending one block to the scanned suffix: the new block is checked
against the last block already present. -/
theorem validFrom_append (H : HashFn) :
    ∀ (xs : List Block) (prev b : Block),
      validFrom H prev (xs ++ [b]) =
        (validFrom H prev xs && blockPairOK H (lastOr xs prev) b)
  | [], prev, b => by simp [validFrom, lastOr]
  | x :: xs, prev, b => by
    show (blockPairOK H prev x && validFrom H x (xs ++ [b])) =
      ((blockPairOK H prev x && validFrom H x xs) && blockPairOK H (lastOr xs x) b)
    rw [validFrom_append H xs x b, Bool.and_assoc]

/-- Unfolding of a successful `add_etl_data_block`. -/
theorem add_etl_data_block_some (H : HashFn) (bc bc' : ETLBlockchain)
    (data : String) (now fuel : Nat)
    (h : ETLBlockchain.add_etl_data_block H bc data now fuel = some bc') :
    ∃ latest b, bc.chain.getLast? = some latest ∧
      Block.mine_block H bc.difficulty
          (Block.init H bc.chain.length data latest.hash none now) fuel = some b ∧
      bc'.chain = bc.chain ++ [b] ∧ bc'.difficulty = bc.difficulty := by
  unfold ETLBlockchain.add_etl_data_block at h
  split at h
  · exact absurd h (by simp)
  · rename_i latest hlast
    split at h
    · exact absurd h (by simp)
    · rename_i b hmine
      simp only [Option.some.injEq] at h
      exact ⟨latest, b, hlast, hmine, by rw [← h], by rw [← h]⟩

/-- A successful append preserves chain validity. -/
theorem add_etl_data_block_valid (H : HashFn) (bc bc' : ETLBlockchain)
    (data : String) (now fuel : Nat)
    (h : ETLBlockchain.add_etl_data_block H bc data now fuel = some bc')
    (hval : ETLBlockchain.is_chain_valid H bc.chain = true) :
    ETLBlockchain.is_chain_valid H bc'.chain = true := by
  obtain ⟨latest, b, hlast, hmine, hchain, -⟩ :=
    add_etl_data_block_some H bc bc' data now fuel h
  have hbhash : b.hash = Block.calculate_hash H b :=
    mine_block_calc H bc.difficulty fuel _ b hmine (init_hash H _ _ _ _ _)
  have hbprev : b.previous_hash = latest.hash := by
    obtain ⟨-, -, h3, -, -⟩ := mine_block_spec H bc.difficulty fuel _ b hmine
    rw [h3, init_previous_hash]
  have hpair : blockPairOK H latest b = true := by
    simp [blockPairOK, hbhash, hbprev]
  rcases hc : bc.chain with - | ⟨c, cs⟩
  · rw [hc] at hlast; simp at hlast
  · rw [hc] at hlast hchain
    rw [getLast?_cons_eq] at hlast
    simp only [Option.some.injEq] at hlast
    rw [hc] at hval
    rw [hchain]
    simp only [ETLBlockchain.is_chain_valid, List.cons_append] at hval ⊢
    rw [validFrom_append, hval, hlast, hpair]
    rfl

/-- A finite sequence of `add_etl_data_block` calls, each with its payload,
construction time and mining fuel. -/
def appendAll (H : HashFn) (bc : ETLBlockchain) :
    List (String × Nat × Nat) → Option ETLBlockchain
  | [] => some bc
  | (data, now, fuel) :: rest =>
    match ETLBlockchain.add_etl_data_block H bc data now fuel with
    | none => none
    | some bc2 => appendAll H bc2 rest

/-- Chain construction (`ETLBlockchain.__init__`) followed by a finite
sequence of append operations. -/
def buildChain (H : HashFn) (gdata : String) (gnow gfuel : Nat)
    (steps : List (String × Nat × Nat)) : Option ETLBlockchain :=
  match ETLBlockchain.init H gdata gnow gfuel with
  | none => none
  | some bc => appendAll H bc steps

theorem appendAll_valid (H : HashFn) :
    ∀ (steps : List (String × Nat × Nat)) (bc bc' : ETLBlockchain),
      appendAll H bc steps = some bc' →
      ETLBlockchain.is_chain_valid H bc.chain = true →
      ETLBlockchain.is_chain_valid H bc'.chain = true
  | [], bc, bc', h, hval => by
    simp only [appendAll, Option.some.injEq] at h
    rw [← h]; exact hval
  | (data, now, fuel) :: rest, bc, bc', h, hval => by
    simp only [appendAll] at h
    rcases hadd : ETLBlockchain.add_etl_data_block H bc data now fuel with - | bc2
    · rw [hadd] at h; exact absurd h (by simp)
    · rw [hadd] at h
      exact appendAll_valid H rest bc2 bc' h
        (add_etl_data_block_valid H bc bc2 data now fuel hadd hval)

/-- C1: every chain built by chain construction (mined genesis) followed by
any finite sequence of append operations — each constructing a block with
`index = len(chain)` and `previous_hash = latest.hash`, mining it and
appending it — satisfies `is_chain_valid`. -/
theorem built_chain_is_valid (H : HashFn) (gdata : String) (gnow gfuel : Nat)
    (steps : List (String × Nat × Nat)) (bc : ETLBlockchain)
    (h : buildChain H gdata gnow gfuel steps = some bc) :
    ETLBlockchain.is_chain_valid H bc.chain = true := by
  unfold buildChain at h
  rcases hinit : ETLBlockchain.init H gdata gnow gfuel with - | bc0
  · rw [hinit] at h; exact absurd h (by simp)
  · rw [hinit] at h
    refine appendAll_valid H steps bc0 bc h ?_
    unfold ETLBlockchain.init at hinit
    rcases hg : ETLBlockchain.create_genesis_block H 4 gdata gnow gfuel with - | g
    · rw [hg] at hinit; exact absurd hinit (by simp)
    · rw [hg] at hinit
      simp only [Option.some.injEq] at hinit
      rw [← hinit]
      rfl

/-- A convenient concrete chain: genesis plus one appended block under the
executable sample hash `exH` (difficulty 4 is met at nonce 0 at once). -/
def bcSample : ETLBlockchain :=
  (buildChain exH "g" 2 0 [("p", 3, 0)]).getD ⟨[], 4⟩

/-- Witness for C1: a concrete construction with one append evaluates to a
chain that `is_chain_valid` accepts. -/
theorem built_chain_is_valid_witness :
    buildChain exH "g" 2 0 [("p", 3, 0)] = some bcSample ∧
      ETLBlockchain.is_chain_valid exH bcSample.chain = true :=
  ⟨by decide, built_chain_is_valid exH "g" 2 0 [("p", 3, 0)] bcSample (by decide)⟩

/-- C2: mining a freshly constructed block (nonce starts at 0, stored hash
sealed by the constructor) at any difficulty `d ≥ 0` leaves, on completion,
a block whose stored hash equals the recomputed hash of its five fields,
whose first `d` hex characters are all `'0'`, and whose nonce is the
smallest non-negative integer whose recomputed hash meets that target for
the block's fixed index, payload, previous hash and timestamp. -/
theorem mined_fresh_block_spec (H : HashFn) (idx : Nat) (data prev : String)
    (ts : Option Nat) (now d fuel : Nat) (b' : Block)
    (h : Block.mine_block H d (Block.init H idx data prev ts now) fuel = some b') :
    b'.hash = Block.calculate_hash H b' ∧ hashOK d b'.hash = true ∧
      ∀ m, m < b'.nonce → hashOK d (calcAt H b' m) = false := by
  obtain ⟨h1, h2, h3, h4, hcase⟩ :=
    mine_block_spec H d fuel (Block.init H idx data prev ts now) b' h
  have hbnonce : (Block.init H idx data prev ts now).nonce = 0 :=
    init_nonce H idx data prev ts now
  have hbhash : (Block.init H idx data prev ts now).hash =
      Block.calculate_hash H (Block.init H idx data prev ts now) :=
    init_hash H idx data prev ts now
  have hcalc : ∀ m, calcAt H b' m = calcAt H (Block.init H idx data prev ts now) m :=
    fun m => calcAt_congr H h1 h2 h3 h4 m
  rcases hcase with ⟨hOK, rfl⟩ | ⟨hnot, hlt, hhash, hOK, hmin⟩
  · refine ⟨hbhash, hOK, ?_⟩
    intro m hm
    rw [hbnonce] at hm
    omega
  · refine ⟨?_, hOK, ?_⟩
    · rw [hhash, calculate_hash_eq_calcAt, hcalc]
    · intro m hm
      rw [hcalc m]
      rcases Nat.eq_zero_or_pos m with rfl | hpos
      · have h0 : calcAt H (Block.init H idx data prev ts now) 0 =
            (Block.init H idx data prev ts now).hash := by
          rw [hbhash, calculate_hash_eq_calcAt, hbnonce]
        rw [h0]
        exact hnot
      · exact hmin m (by omega) hm

/-- A concrete mined block under `exH` (mining succeeds at nonce 0). -/
def minedSample : Block :=
  (Block.mine_block exH 4 (Block.init exH 1 "p" "q" none 3) 0).getD default

/-- Witness for C2: on a concrete freshly constructed block, mining at
difficulty 4 completes and the sealed hash equals the recomputed hash and
meets the target. -/
theorem mined_fresh_block_spec_witness :
    minedSample.hash = Block.calculate_hash exH minedSample ∧
      hashOK 4 minedSample.hash = true :=
  ⟨(mined_fresh_block_spec exH 1 "p" "q" none 3 4 0 minedSample (by decide)).1,
    (mined_fresh_block_spec exH 1 "p" "q" none 3 4 0 minedSample (by decide)).2.1⟩

/-- C7: chain construction creates exactly one (genesis) block: the chain has
length 1, the genesis block has index 0 and sentinel previous hash `"0"`, and
its stored hash meets the difficulty-4 mining target. -/
theorem genesis_chain_spec (H : HashFn) (gdata : String) (now fuel : Nat)
    (bc : ETLBlockchain) (h : ETLBlockchain.init H gdata now fuel = some bc) :
    bc.chain.length = 1 ∧ (bc.chain.headD default).index = 0 ∧
      (bc.chain.headD default).previous_hash = "0" ∧
      hashOK 4 (bc.chain.headD default).hash = true := by
  unfold ETLBlockchain.init at h
  split at h
  · exact absurd h (by simp)
  · rename_i g hg
    simp only [Option.some.injEq] at h
    rw [← h]
    unfold ETLBlockchain.create_genesis_block at hg
    obtain ⟨h1, h2, h3, -, -⟩ :=
      mine_block_spec H 4 fuel (Block.init H 0 gdata "0" none now) g hg
    have hOK := mine_block_hashOK H 4 fuel _ g hg
    refine ⟨rfl, ?_, ?_, hOK⟩
    · show g.index = 0
      rw [h1, init_index]
    · show g.previous_hash = "0"
      rw [h3, init_previous_hash]

/-- A concrete freshly constructed chain under `exH`. -/
def bcGenesis : ETLBlockchain :=
  (ETLBlockchain.init exH "g" 2 0).getD ⟨[], 0⟩

/-- Witness for C7: a concrete chain construction yields a single genesis
block with index 0, previous hash `"0"` and a target-satisfying hash. -/
theorem genesis_chain_spec_witness :
    bcGenesis.chain.length = 1 ∧ (bcGenesis.chain.headD default).index = 0 ∧
      (bcGenesis.chain.headD default).previous_hash = "0" ∧
      hashOK 4 (bcGenesis.chain.headD default).hash = true :=
  genesis_chain_spec exH "g" 2 0 bcGenesis (by decide)

theorem hashOK_false_of_short (d : Nat) (s : String) (h : s.data.length < d) :
    hashOK d s = false := by
  unfold hashOK
  rw [beq_eq_false_iff_ne]
  intro heq
  have hlen := congrArg List.length heq
  simp only [List.length_take, List.length_replicate] at hlen
  omega

/-- When every digest of `H` is 64 characters long (as every SHA-256 hex
digest is) and the difficulty exceeds 64, the mining loop never stops: the
target `"0" * difficulty` is longer than any hash slice `hash[:difficulty]`
can ever be. -/
theorem mine_block_none_of_long (H : HashFn) (hlen : ∀ f, (H f).data.length = 64)
    (d : Nat) (hd : 64 < d) :
    ∀ (fuel : Nat) (b : Block), b.hash.data.length = 64 →
      Block.mine_block H d b fuel = none
  | 0, b, hb => by
    simp [Block.mine_block, hashOK_false_of_short d b.hash (by omega)]
  | fuel + 1, b, hb => by
    simp only [Block.mine_block, hashOK_false_of_short d b.hash (by omega),
      Bool.false_eq_true, if_false]
    exact mine_block_none_of_long H hlen d hd fuel (Block.mineStep H b)
      (by rw [mineStep_hash]; exact hlen _)

/-- C8 (amended): whenever the proof-of-work search completes, the mined
hash meets the target and the nonce — an unbounded `Nat` counter — has not
wrapped (it only ever increased from its starting value); but mining does
not terminate for every difficulty: with 64-character digests no nonce can
meet a target longer than 64 characters, so for difficulty > 64 the search
runs forever. -/
theorem mining_spec_and_limit :
    (∀ (H : HashFn) (d fuel : Nat) (b b' : Block),
        Block.mine_block H d b fuel = some b' →
        hashOK d b'.hash = true ∧ b.nonce ≤ b'.nonce) ∧
      (∀ H : HashFn, (∀ f, (H f).data.length = 64) →
        ∀ d, 64 < d → ∀ b : Block, b.hash.data.length = 64 →
          ¬ minesTerminates H d b) := by
  constructor
  · intro H d fuel b b' h
    exact ⟨mine_block_hashOK H d fuel b b' h, mine_block_nonce_le H d fuel b b' h⟩
  · rintro H hlen d hd b hb ⟨fuel, b', hmine⟩
    rw [mine_block_none_of_long H hlen d hd fuel b hb] at hmine
    exact absurd hmine (by simp)

/-- A concrete block whose digests behave like SHA-256 hex digests in
length. -/
def blk65 : Block := Block.init exH64 0 "g" "0" none 1

/-- Counterexample for C8 as stated: mining does NOT terminate for every
block and every difficulty — at difficulty 65 on a concrete block (with
64-character digests, as SHA-256 produces) the search never finds a
satisfying nonce. -/
theorem mining_terminates_cex : ¬ minesTerminates exH64 65 blk65 := by
  rintro ⟨fuel, b', hmine⟩
  rw [mine_block_none_of_long exH64 (fun f => rfl) 65 (by omega) fuel blk65
    (by decide)] at hmine
  exact absurd hmine (by simp)

/-- Witness for C8 (amended): a concrete completed mining run meets the
target with a non-decreased nonce. -/
theorem mining_spec_and_limit_witness :
    hashOK 4 ((Block.mine_block exH 4 (Block.init exH 0 "w" "0" none 1) 0).getD
        default).hash = true ∧
      (Block.init exH 0 "w" "0" none 1).nonce ≤
        ((Block.mine_block exH 4 (Block.init exH 0 "w" "0" none 1) 0).getD
          default).nonce :=
  mining_spec_and_limit.1 exH 4 0 (Block.init exH 0 "w" "0" none 1) _ (by decide)

/-- The scan accepts as soon as every pairwise check passes. -/
theorem validFrom_of_forall (H : HashFn) :
    ∀ (bs : List Block) (prev : Block),
      (∀ i, i < bs.length →
        (bs.getD i default).hash = Block.calculate_hash H (bs.getD i default) ∧
          (bs.getD i default).previous_hash = ((prev :: bs).getD i default).hash) →
      validFrom H prev bs = true
  | [], _, _ => rfl
  | b :: bs, prev, h => by
    have h0 := h 0 (by simp)
    simp only [List.getD_cons_zero] at h0
    have hpair : blockPairOK H prev b = true := by
      simp [blockPairOK, h0.1, h0.2]
    have hrest : validFrom H b bs = true := by
      refine validFrom_of_forall H bs b (fun i hi => ?_)
      have := h (i + 1) (by simpa using hi)
      simpa only [List.getD_cons_succ] using this
    simp [validFrom, hpair, hrest]

/-- The scan only reads the previous block through its stored hash. -/
theorem validFrom_hash_congr (H : HashFn) (p q : Block) (hpq : p.hash = q.hash) :
    ∀ bs : List Block, validFrom H p bs = validFrom H q bs
  | [] => rfl
  | b :: bs => by simp [validFrom, blockPairOK, hpq]

/-- C10: validation is purely the pairwise stored-hash/recomputed-hash and
linkage checks at indices 1..N-1 — any chain satisfying them passes, with no
proof-of-work check anywhere — and the genesis block's own data, nonce and
timestamp are never examined: replacing block 0 by any block with the same
stored hash leaves the validation result unchanged. -/
theorem validation_pairwise_only (H : HashFn) (chain : List Block) :
    ((∀ i, i < chain.length → 1 ≤ i →
        (chain.getD i default).hash = Block.calculate_hash H (chain.getD i default) ∧
          (chain.getD i default).previous_hash = (chain.getD (i - 1) default).hash) →
      ETLBlockchain.is_chain_valid H chain = true) ∧
      ∀ g' : Block, g'.hash = (chain.headD default).hash →
        ETLBlockchain.is_chain_valid H (chain.set 0 g') =
          ETLBlockchain.is_chain_valid H chain := by
  constructor
  · intro h
    rcases chain with - | ⟨c, cs⟩
    · rfl
    · show validFrom H c cs = true
      refine validFrom_of_forall H cs c (fun i hi => ?_)
      have := h (i + 1) (by simpa using hi) (by omega)
      simpa only [List.getD_cons_succ, Nat.add_sub_cancel] using this
  · intro g' hg
    rcases chain with - | ⟨c, cs⟩
    · rfl
    · simp only [List.headD_cons] at hg
      show validFrom H g' cs = validFrom H c cs
      exact validFrom_hash_congr H g' c hg cs

/-- Genesis block of the concrete sample chain with its payload replaced
but its stored hash untouched. -/
def gMut10 : Block := { (bcSample.chain.headD default) with data := "mutated" }

/-- Witness for C10: on a concrete two-block chain the pairwise hypothesis
holds and validation passes, and swapping the genesis payload (stored hash
unchanged) does not change the validation result. -/
theorem validation_pairwise_only_witness :
    ETLBlockchain.is_chain_valid exH bcSample.chain = true ∧
      ETLBlockchain.is_chain_valid exH (bcSample.chain.set 0 gMut10) =
        ETLBlockchain.is_chain_valid exH bcSample.chain :=
  ⟨(validation_pairwise_only exH bcSample.chain).1 (by decide),
    (validation_pairwise_only exH bcSample.chain).2 gMut10 (by decide)⟩

/-- The loop with its counter returns `none` exactly when the plain boolean
scan passes. -/
theorem firstBadAux_none_iff (H : HashFn) :
    ∀ (bs : List Block) (prev : Block) (i0 : Nat),
      firstBadAux H prev bs i0 = none ↔ validFrom H prev bs = true
  | [], _, _ => by simp [firstBadAux, validFrom]
  | b :: bs, prev, i0 => by
    by_cases hp : blockPairOK H prev b = true
    · simp [firstBadAux, validFrom, hp, firstBadAux_none_iff H bs b (i0 + 1)]
    · simp [firstBadAux, validFrom, hp]

theorem firstBad_none_iff (H : HashFn) (chain : List Block) :
    firstBad H chain = none ↔ ETLBlockchain.is_chain_valid H chain = true := by
  rcases chain with - | ⟨c, cs⟩
  · simp [firstBad, ETLBlockchain.is_chain_valid]
  · exact firstBadAux_none_iff H cs c 1

/-- Core tampering lemma: replace the block at offset `j` of the scanned
suffix of a passing chain; if either the stored hash changed (breaking the
link from the next block) or the recomputed hash no longer matches the kept
stored hash, the scan now stops at offset `j` or `j + 1`. -/
theorem tamper_aux (H : HashFn) :
    ∀ (bs : List Block) (prev : Block) (j : Nat) (b' : Block) (i0 : Nat),
      validFrom H prev bs = true → j + 1 < bs.length →
      (b'.hash = (bs.getD j default).hash →
        Block.calculate_hash H b' ≠ (bs.getD j default).hash) →
      firstBadAux H prev (bs.set j b') i0 = some (i0 + j) ∨
        firstBadAux H prev (bs.set j b') i0 = some (i0 + j + 1)
  | [], _, j, _, _, _, hj, _ => by simp at hj
  | b :: bs, prev, 0, b', i0, hval, hj, hdet => by
    rcases bs with - | ⟨c, cs⟩
    · simp only [List.length_cons, List.length_nil] at hj
      omega
    · simp only [List.getD_cons_zero] at hdet
      simp only [validFrom, Bool.and_eq_true] at hval
      obtain ⟨hpair_pb, hpair_bc, -⟩ := hval
      simp only [List.set_cons_zero]
      by_cases hp : blockPairOK H prev b' = true
      · right
        have hb'calc : b'.hash = Block.calculate_hash H b' := by
          simp only [blockPairOK, Bool.and_eq_true, beq_iff_eq] at hp
          exact hp.1
        have hbb' : b'.hash ≠ b.hash := by
          intro hEq
          exact hdet hEq (by rw [← hb'calc, hEq])
        have hcprev : c.previous_hash = b.hash := by
          simp only [blockPairOK, Bool.and_eq_true, beq_iff_eq] at hpair_bc
          exact hpair_bc.2
        have hpair2 : blockPairOK H b' c = false := by
          simp only [blockPairOK, Bool.and_eq_false_iff]
          right
          rw [beq_eq_false_iff_ne, hcprev]
          exact fun hEq => hbb' hEq.symm
        simp [firstBadAux, hp, hpair2]
      · left
        simp only [Bool.not_eq_true] at hp
        simp [firstBadAux, hp]
  | b :: bs, prev, j + 1, b', i0, hval, hj, hdet => by
    simp only [validFrom, Bool.and_eq_true] at hval
    obtain ⟨hpair, hval2⟩ := hval
    simp only [List.getD_cons_succ] at hdet
    have ih := tamper_aux H bs b j b' (i0 + 1) hval2 (by simpa using hj) hdet
    simp only [List.set_cons_succ, firstBadAux, hpair, if_true]
    have e1 : i0 + 1 + j = i0 + (j + 1) := by omega
    rw [e1] at ih
    exact ih

/-- C3 (amended): in a valid chain, replacing block `i` for `1 ≤ i` with
`i + 1` still present — leaving block `i + 1` (hence its `previous_hash`)
unchanged — makes validation fail at index `i` or `i + 1`, provided the
replacement is detectable: when it keeps the stored hash, its recomputed
hash must actually differ (no hash collision).  For `i = 0` this fails:
validation never rechecks the genesis block (see the counterexample). -/
theorem tampering_detected (H : HashFn) (chain : List Block) (i : Nat) (b' : Block)
    (hval : ETLBlockchain.is_chain_valid H chain = true)
    (h1 : 1 ≤ i) (h2 : i + 1 < chain.length)
    (hdet : b'.hash = (chain.getD i default).hash →
      Block.calculate_hash H b' ≠ (chain.getD i default).hash) :
    (firstBad H (chain.set i b') = some i ∨
        firstBad H (chain.set i b') = some (i + 1)) ∧
      ETLBlockchain.is_chain_valid H (chain.set i b') = false := by
  rcases chain with - | ⟨c, cs⟩
  · simp at h2
  · obtain ⟨j, rfl⟩ : ∃ j, i = j + 1 := ⟨i - 1, by omega⟩
    simp only [List.getD_cons_succ] at hdet
    have core := tamper_aux H cs c j b' 1 hval (by simpa using h2) hdet
    have e1 : 1 + j = j + 1 := by omega
    rw [e1] at core
    have hfb : firstBad H ((c :: cs).set (j + 1) b') = some (j + 1) ∨
        firstBad H ((c :: cs).set (j + 1) b') = some (j + 1 + 1) := by
      simpa [firstBad, List.set_cons_succ] using core
    refine ⟨hfb, ?_⟩
    rcases hv : ETLBlockchain.is_chain_valid H ((c :: cs).set (j + 1) b') with - | -
    · rfl
    · have hnone := (firstBad_none_iff H ((c :: cs).set (j + 1) b')).mpr hv
      rcases hfb with hsome | hsome <;> rw [hsome] at hnone <;> exact absurd hnone (by simp)

/-- Concrete valid blocks under `exH` for evaluating the validation claims. -/
def gW : Block := Block.init exH 0 "g" "0" none 2

/-- Second block of the concrete valid chain. -/
def b1W : Block := Block.init exH 1 "d1" gW.hash none 3

/-- Third block of the concrete valid chain. -/
def b2W : Block := Block.init exH 2 "d2" b1W.hash none 4

/-- Block 1 of the concrete chain with the payload replaced but the stored
hash kept. -/
def b1Mut : Block := { b1W with data := "tampered" }

/-- Genesis of the concrete chain with the payload replaced but the stored
hash kept. -/
def gMut : Block := { gW with data := "q" }

/-- Counterexample for C3 as stated: on a concrete valid chain, mutating a
field of block `i = 0` (the genesis payload) while keeping its stored hash —
not an honest re-seal, as its recomputed hash no longer matches — leaves
block 1's `previous_hash` check satisfied and validation still returns
true. -/
theorem tampering_detected_cex :
    ETLBlockchain.is_chain_valid exH [gW, b1W] = true ∧
      gMut.data ≠ gW.data ∧ gMut.hash = gW.hash ∧
      Block.calculate_hash exH gMut ≠ gMut.hash ∧
      ETLBlockchain.is_chain_valid exH ([gW, b1W].set 0 gMut) = true := by
  decide

/-- Witness for C3 (amended): mutating the payload of block 1 in a concrete
three-block valid chain (stored hash kept, recomputed hash differs) makes
validation fail, at index 1 or 2. -/
theorem tampering_detected_witness :
    (firstBad exH ([gW, b1W, b2W].set 1 b1Mut) = some 1 ∨
        firstBad exH ([gW, b1W, b2W].set 1 b1Mut) = some 2) ∧
      ETLBlockchain.is_chain_valid exH ([gW, b1W, b2W].set 1 b1Mut) = false :=
  tampering_detected exH [gW, b1W, b2W] 1 b1Mut (by decide) (by decide) (by decide)
    (by decide)

/-- Soundness of the reported index: when the loop stops at `i`, the check
pair at offset `i - i0` fails and every earlier pair passes. -/
theorem firstBadAux_some_spec (H : HashFn) :
    ∀ (bs : List Block) (prev : Block) (i0 i : Nat),
      firstBadAux H prev bs i0 = some i →
      i0 ≤ i ∧ i - i0 < bs.length ∧
        blockPairOK H ((prev :: bs).getD (i - i0) default)
          (bs.getD (i - i0) default) = false ∧
        ∀ j, j < i - i0 →
          blockPairOK H ((prev :: bs).getD j default) (bs.getD j default) = true
  | [], _, _, _, h => by simp [firstBadAux] at h
  | b :: bs, prev, i0, i, h => by
    by_cases hp : blockPairOK H prev b = true
    · simp only [firstBadAux, hp, if_true] at h
      obtain ⟨hle, hlen, hbad, hmin⟩ := firstBadAux_some_spec H bs b (i0 + 1) i h
      have hk : i - i0 = (i - (i0 + 1)) + 1 := by omega
      refine ⟨by omega, by simp only [List.length_cons]; omega, ?_, ?_⟩
      · rw [hk]
        simpa only [List.getD_cons_succ] using hbad
      · intro j hj
        rcases j with - | j2
        · simpa only [List.getD_cons_zero] using hp
        · have := hmin j2 (by omega)
          simpa only [List.getD_cons_succ] using this
    · rw [Bool.not_eq_true] at hp
      simp only [firstBadAux, hp, Bool.false_eq_true, if_false, Option.some.injEq] at h
      subst h
      simp only [Nat.sub_self, List.getD_cons_zero, List.length_cons]
      refine ⟨Nat.le_refl _, by omega, ?_, ?_⟩
      · simpa using hp
      · intro j hj
        omega

/-- Completeness of the reported index: when the pair at offset `j` fails
and every earlier pair passes, the loop stops exactly at `i0 + j`. -/
theorem firstBadAux_complete (H : HashFn) :
    ∀ (bs : List Block) (prev : Block) (j i0 : Nat),
      j < bs.length →
      blockPairOK H ((prev :: bs).getD j default) (bs.getD j default) = false →
      (∀ k, k < j →
        blockPairOK H ((prev :: bs).getD k default) (bs.getD k default) = true) →
      firstBadAux H prev bs i0 = some (i0 + j)
  | [], _, j, _, hj, _, _ => by simp at hj
  | b :: bs, prev, 0, i0, hj, hbad, hmin => by
    simp only [List.getD_cons_zero] at hbad
    simp [firstBadAux, hbad]
  | b :: bs, prev, j + 1, i0, hj, hbad, hmin => by
    have hp : blockPairOK H prev b = true := by
      simpa only [List.getD_cons_zero] using hmin 0 (by omega)
    simp only [firstBadAux, hp, if_true]
    have ih := firstBadAux_complete H bs b j (i0 + 1) (by simpa using hj)
      (by simpa only [List.getD_cons_succ] using hbad)
      (fun k hk => by
        have := hmin (k + 1) (by omega)
        simpa only [List.getD_cons_succ] using this)
    rw [ih]
    congr 1
    omega

/-- C4 (amended): the scan covers indices 1..N-1 in order; the boolean
result is true exactly when no check fails; when the loop stops it stops at
the first index whose stored-hash or linkage check fails (that index is what
the `print` reports); conversely the first failing index is where it stops;
and a chain with at most one block (genesis only) always validates.  The
boolean result itself does not carry the failing index (see the
counterexample). -/
theorem validation_scan_spec (H : HashFn) (chain : List Block) :
    (ETLBlockchain.is_chain_valid H chain = true ↔ firstBad H chain = none) ∧
      (∀ i, firstBad H chain = some i →
        1 ≤ i ∧ i < chain.length ∧ badAt H chain i = true ∧
          ∀ j, j < i → 1 ≤ j → badAt H chain j = false) ∧
      (∀ i, i < chain.length → 1 ≤ i → badAt H chain i = true →
        (∀ j, j < i → 1 ≤ j → badAt H chain j = false) →
        firstBad H chain = some i) ∧
      (chain.length ≤ 1 → ETLBlockchain.is_chain_valid H chain = true) := by
  refine ⟨(firstBad_none_iff H chain).symm, ?_, ?_, ?_⟩
  · intro i h
    rcases chain with - | ⟨c, cs⟩
    · simp [firstBad] at h
    · obtain ⟨hle, hlen, hbad, hmin⟩ := firstBadAux_some_spec H cs c 1 i h
      refine ⟨hle, by simp only [List.length_cons]; omega, ?_, ?_⟩
      · unfold badAt
        have hgi : (c :: cs).getD i default = cs.getD (i - 1) default := by
          obtain ⟨j, rfl⟩ : ∃ j, i = j + 1 := ⟨i - 1, by omega⟩
          simp [List.getD_cons_succ]
        rw [hgi, hbad]
        rfl
      · intro j hj hj1
        unfold badAt
        have hgj : (c :: cs).getD j default = cs.getD (j - 1) default := by
          obtain ⟨k, rfl⟩ : ∃ k, j = k + 1 := ⟨j - 1, by omega⟩
          simp [List.getD_cons_succ]
        rw [hgj, hmin (j - 1) (by omega)]
        rfl
  · intro i hlen h1 hbad hmin
    rcases chain with - | ⟨c, cs⟩
    · simp at hlen
    · unfold badAt at hbad
      have hgi : (c :: cs).getD i default = cs.getD (i - 1) default := by
        obtain ⟨j, rfl⟩ : ∃ j, i = j + 1 := ⟨i - 1, by omega⟩
        simp [List.getD_cons_succ]
      rw [hgi] at hbad
      have hcore := firstBadAux_complete H cs c (i - 1) 1
        (by simp only [List.length_cons] at hlen; omega)
        (by
          rcases hb : blockPairOK H ((c :: cs).getD (i - 1) default)
              (cs.getD (i - 1) default) with - | -
          · rfl
          · rw [hb] at hbad; simp at hbad)
        (fun k hk => by
          have := hmin (k + 1) (by omega) (by omega)
          unfold badAt at this
          have hgk : (c :: cs).getD (k + 1) default = cs.getD k default := by
            simp [List.getD_cons_succ]
          rw [hgk] at this
          simp only [Nat.add_sub_cancel] at this
          rcases hb : blockPairOK H ((c :: cs).getD k default)
              (cs.getD k default) with - | -
          · rw [hb] at this; simp at this
          · rfl)
      show firstBadAux H c cs 1 = some i
      rw [hcore]
      congr 1
      omega
  · intro hlen
    rcases chain with - | ⟨c, cs⟩
    · rfl
    · rcases cs with - | ⟨x, xs⟩
      · rfl
      · simp at hlen

/-- A block whose stored hash does not match its recomputed hash. -/
def badB1 : Block := ⟨1, "z", gW.hash, 9, 0, "zzz"⟩

/-- A block at index 2 whose stored hash does not match its recomputed
hash. -/
def badB2 : Block := ⟨2, "z", b1W.hash, 9, 0, "zzz"⟩

/-- Counterexample for C4 as stated: the result of `is_chain_valid` does not
report which index failed — two concrete chains failing first at index 1 and
at index 2 respectively produce the identical result `false` (the failing
index is only printed, not returned). -/
theorem validation_scan_spec_cex :
    ETLBlockchain.is_chain_valid exH [gW, badB1] = false ∧
      ETLBlockchain.is_chain_valid exH [gW, b1W, badB2] = false ∧
      firstBad exH [gW, badB1] = some 1 ∧
      firstBad exH [gW, b1W, badB2] = some 2 ∧
      ETLBlockchain.is_chain_valid exH [gW, badB1] =
        ETLBlockchain.is_chain_valid exH [gW, b1W, badB2] := by
  decide

/-- Witness for C4 (amended): on a concrete chain whose first failing pair
is at index 1, the loop reports index 1. -/
theorem validation_scan_spec_witness :
    firstBad exH [gW, badB1, b2W] = some 1 :=
  (validation_scan_spec exH [gW, badB1, b2W]).2.2.1 1 (by decide) (by decide)
    (by decide) (by decide)

/-- Reloading a serialized block restores it exactly, provided its
timestamp is not the Python-falsy `0` (which `Block.__init__` would replace
by the current time). -/
theorem loadBlock_to_dict (H : HashFn) (b : Block) (now : Nat)
    (hts : b.timestamp ≠ 0) : loadBlock H (Block.to_dict b) now = b := by
  obtain ⟨i, dt, p, t, n, hs⟩ := b
  simp only [Block.to_dict] at hts ⊢
  simp [loadBlock, Block.init, hts]

theorem load_save_list (H : HashFn) (now : Nat) :
    ∀ l : List Block, (∀ b ∈ l, b.timestamp ≠ 0) →
      l.map (fun b => loadBlock H (Block.to_dict b) now) = l
  | [], _ => rfl
  | b :: bs, h => by
    rw [List.map_cons, loadBlock_to_dict H b now (h b (by simp)),
      load_save_list H now bs (fun x hx => h x (by simp [hx]))]

/-- C5 (amended): for every chain whose blocks all have nonzero timestamps
(true of every block the code constructs, since `time.time()` is never 0),
`load_blockchain ∘ save_blockchain` restores every field of every block
exactly — `nonce` and `hash` verbatim, not recomputed — and therefore
preserves the `is_chain_valid` verdict.  A zero timestamp is Python-falsy
and would be silently replaced on load (see the counterexample). -/
theorem save_load_roundtrip (H : HashFn) (bc : ETLBlockchain)
    (created_at : String) (now : Nat)
    (hts : ∀ b ∈ bc.chain, b.timestamp ≠ 0) :
    ETLBlockchain.load_blockchain H (bc.save_blockchain created_at) now =
        bc.chain ∧
      ETLBlockchain.is_chain_valid H
          (ETLBlockchain.load_blockchain H (bc.save_blockchain created_at) now) =
        ETLBlockchain.is_chain_valid H bc.chain := by
  have h1 : ETLBlockchain.load_blockchain H (bc.save_blockchain created_at) now =
      bc.chain := by
    unfold ETLBlockchain.load_blockchain ETLBlockchain.save_blockchain
    rw [List.map_map]
    exact load_save_list H now bc.chain hts
  exact ⟨h1, by rw [h1]⟩

/-- A block carrying the Python-falsy timestamp `0`. -/
def tsZeroBlock : Block := ⟨0, "d", "0", 0, 7, "h"⟩

/-- A chain containing the zero-timestamp block. -/
def tsZeroChain : ETLBlockchain := ⟨[tsZeroBlock], 4⟩

/-- Counterexample for C5 as stated: a chain holding a block with
timestamp 0 does not round-trip — `Block.__init__`'s
`timestamp or time.time()` treats the stored 0 as absent and substitutes
the load-time clock, so the timestamp field is not preserved. -/
theorem save_load_roundtrip_cex :
    ETLBlockchain.load_blockchain exH (tsZeroChain.save_blockchain "c") 1 ≠
        tsZeroChain.chain ∧
      ((ETLBlockchain.load_blockchain exH (tsZeroChain.save_blockchain "c")
            1).headD default).timestamp = 1 ∧
      tsZeroBlock.timestamp = 0 := by
  decide

/-- Concrete chain for the round-trip witness. -/
def bcPersist : ETLBlockchain := ⟨[gW, b1W], 4⟩

/-- Witness for C5 (amended): a concrete two-block chain round-trips
exactly through save and load, preserving the validation verdict. -/
theorem save_load_roundtrip_witness :
    ETLBlockchain.load_blockchain exH (bcPersist.save_blockchain "c") 9 =
        bcPersist.chain ∧
      ETLBlockchain.is_chain_valid exH
          (ETLBlockchain.load_blockchain exH (bcPersist.save_blockchain "c") 9) =
        ETLBlockchain.is_chain_valid exH bcPersist.chain :=
  save_load_roundtrip exH bcPersist "c" 9 (by decide)

/-!
Canonicalizer (`deterministic_csv_bytes` in `ETL.py`).

A dataset is modelled as a column-name list plus rows of cells addressed by
column name; a cell is `none` for a missing value (NaN) and otherwise its
canonical rendered text (the fixed textual form the pandas CSV writer emits
after `convert_dtypes`, which is value-determined and order-independent, so
it is the identity on this representation).  The reference row sort
(`sort_values(by=all_columns, kind="mergesort", na_position="first")`) is a
stable lexicographic sort over the full tuple of cell values with nulls
first; because the sort key is the entire row, rows comparing equal are
identical, so every correct sort of the same multiset yields the same list —
the model uses insertion sort and proves exactly that uniqueness.  The CSV
rendering follows `to_csv(index=False, lineterminator="\n", na_rep="",
quoting=csv.QUOTE_MINIMAL)`: a header line then one line per row, every
line (including an empty header for a zero-column frame) followed by the
line terminator.
-/

/-- A row: cells addressed by column name. -/
abbrev Row := List (String × Option String)

/-- A tabular dataset: columns plus rows. -/
structure DataFrame where
  cols : List String
  rows : List Row
deriving DecidableEq

/-- Cell of row `r` in column `c` (column selection by label). -/
def getCell (r : Row) (c : String) : Option String :=
  (r.lookup c).join

/-- Null-first comparison of two cells (`na_position="first"`). -/
def cellLe (a b : Option String) : Bool :=
  match a, b with
  | none, _ => true
  | some _, none => false
  | some x, some y => decide (x ≤ y)

/-- Lexicographic comparison of projected rows: `sort_values` over the full
column tuple. -/
def rowLe : List (Option String) → List (Option String) → Bool
  | [], _ => true
  | _ :: _, [] => false
  | a :: as2, b :: bs2 => if a = b then rowLe as2 bs2 else cellLe a b

/-- Propositional form of `rowLe`, used as the sort relation. -/
def RowLeR (a b : List (Option String)) : Prop := rowLe a b = true

instance : DecidableRel RowLeR := fun a b =>
  inferInstanceAs (Decidable (rowLe a b = true))

theorem cellLe_total (a b : Option String) : cellLe a b = true ∨ cellLe b a = true := by
  rcases a with - | x <;> rcases b with - | y
  · left; rfl
  · left; rfl
  · right; rfl
  · rcases le_total x y with h | h
    · left; simp [cellLe, h]
    · right; simp [cellLe, h]

theorem cellLe_trans {a b c : Option String} (h1 : cellLe a b = true)
    (h2 : cellLe b c = true) : cellLe a c = true := by
  rcases a with - | x <;> rcases b with - | y <;> rcases c with - | z <;>
    simp [cellLe] at *
  exact le_trans h1 h2

theorem cellLe_antisymm : ∀ {a b : Option String},
    cellLe a b = true → cellLe b a = true → a = b
  | none, none, _, _ => rfl
  | none, some y, _, h2 => by simp [cellLe] at h2
  | some x, none, h1, _ => by simp [cellLe] at h1
  | some x, some y, h1, h2 => by
    have h1' : decide (x ≤ y) = true := h1
    have h2' : decide (y ≤ x) = true := h2
    rw [le_antisymm (of_decide_eq_true h1') (of_decide_eq_true h2')]

theorem rowLe_total : ∀ a b : List (Option String), rowLe a b = true ∨ rowLe b a = true
  | [], [] => Or.inl rfl
  | [], _ :: _ => Or.inl rfl
  | _ :: _, [] => Or.inr rfl
  | a :: as2, b :: bs2 => by
    by_cases hab : a = b
    · subst hab
      simp only [rowLe, if_pos rfl]
      exact rowLe_total as2 bs2
    · have hba : ¬b = a := fun h => hab h.symm
      simp only [rowLe, if_neg hab, if_neg hba]
      exact cellLe_total a b

theorem rowLe_trans : ∀ {a b c : List (Option String)},
    rowLe a b = true → rowLe b c = true → rowLe a c = true
  | [], _, _, _, _ => rfl
  | _ :: _, [], _, h1, _ => by simp [rowLe] at h1
  | _ :: _, _ :: _, [], _, h2 => by simp [rowLe] at h2
  | x :: xs, y :: ys, z :: zs, h1, h2 => by
    by_cases hxy : x = y <;> by_cases hyz : y = z
    · subst hxy; subst hyz
      simp only [rowLe, if_pos rfl] at h1 h2 ⊢
      exact rowLe_trans h1 h2
    · subst hxy
      simp only [rowLe, if_pos rfl, if_neg hyz] at h2 ⊢
      exact h2
    · subst hyz
      simp only [rowLe, if_neg hxy] at h1 ⊢
      exact h1
    · simp only [rowLe, if_neg hxy, if_neg hyz] at h1 h2
      have hxz : ¬x = z := by
        intro hEq
        subst hEq
        exact hxy (cellLe_antisymm h1 h2)
      simp only [rowLe, if_neg hxz]
      exact cellLe_trans h1 h2

theorem rowLe_antisymm : ∀ {a b : List (Option String)},
    rowLe a b = true → rowLe b a = true → a = b
  | [], [], _, _ => rfl
  | [], _ :: _, _, h2 => by simp [rowLe] at h2
  | _ :: _, [], h1, _ => by simp [rowLe] at h1
  | x :: xs, y :: ys, h1, h2 => by
    by_cases hxy : x = y
    · subst hxy
      simp only [rowLe, if_pos rfl] at h1 h2
      rw [rowLe_antisymm h1 h2]
    · have hyx : ¬y = x := fun h => hxy h.symm
      simp only [rowLe, if_neg hxy, if_neg hyx] at h1 h2
      exact absurd (cellLe_antisymm h1 h2) hxy

instance : IsTotal (List (Option String)) RowLeR := ⟨rowLe_total⟩

instance : IsTrans (List (Option String)) RowLeR := ⟨fun _ _ _ => rowLe_trans⟩

instance : IsAntisymm (List (Option String)) RowLeR := ⟨fun _ _ => rowLe_antisymm⟩

/-- Python's `sorted` on the column names (total lexicographic string
order). -/
def sortStrings (l : List String) : List String :=
  List.insertionSort (fun a b : String => a ≤ b) l

/-- Two permutations of the same list have the same sort, because the sort
relations used here are total, transitive and antisymmetric. -/
theorem insertionSort_eq_of_perm {α : Type} (r : α → α → Prop) [DecidableRel r]
    [IsTotal α r] [IsTrans α r] [IsAntisymm α r] {l1 l2 : List α}
    (h : l1.Perm l2) : List.insertionSort r l1 = List.insertionSort r l2 :=
  List.eq_of_perm_of_sorted
    ((List.perm_insertionSort r l1).trans (h.trans (List.perm_insertionSort r l2).symm))
    (List.sorted_insertionSort r l1) (List.sorted_insertionSort r l2)

/-- Double every quote character (CSV quoting). -/
def escapeQuotes (s : String) : String :=
  String.mk (s.data.foldr (fun c acc => if c = '"' then '"' :: '"' :: acc else c :: acc) [])

/-- QUOTE_MINIMAL: a field needs quoting only when it contains a delimiter,
a quote or a line break. -/
def needsQuote (s : String) : Bool :=
  s.data.any (fun c => c == ',' || c == '"' || c == '\n' || c == '\r')

/-- Minimally quoted CSV field. -/
def csvField (s : String) : String :=
  if needsQuote s then "\"" ++ escapeQuotes s ++ "\"" else s

/-- Cell rendering with `na_rep=""`. -/
def renderCell : Option String → String
  | none => ""
  | some v => csvField v

/-- Comma-joined CSV line. -/
def renderLine : List String → String
  | [] => ""
  | [c] => c
  | c :: cs => c ++ "," ++ renderLine cs

/-- Each line is followed by the fixed terminator `"\n"`. -/
def renderLines : List String → String
  | [] => ""
  | l :: ls => l ++ "\n" ++ renderLines ls

/-- The CSV document: header line then one line per row. -/
def renderCSV (cols : List String) (rows : List (List (Option String))) : String :=
  renderLines
    (renderLine (cols.map csvField) :: rows.map (fun r => renderLine (r.map renderCell)))

/-- Source `deterministic_csv_bytes`: reorder the columns into sorted order,
sort the rows by the full column tuple when there is at least one column,
and render the CSV document. -/
def deterministic_csv_bytes (D : DataFrame) : String :=
  let cs := sortStrings D.cols
  let proj := D.rows.map (fun r => cs.map (getCell r))
  let sortedRows := if cs.isEmpty then proj else List.insertionSort RowLeR proj
  renderCSV cs sortedRows

theorem map_to_nil_eq_replicate :
    ∀ l : List Row, l.map (fun _ => ([] : List (Option String))) =
      List.replicate l.length []
  | [] => rfl
  | r :: rs => by
    simp only [List.map_cons, List.length_cons, List.replicate,
      map_to_nil_eq_replicate rs]

/-- C6: canonicalization is invariant under any permutation of the rows and
any permutation of the columns — `canonicalize(shuffle_rows(shuffle_cols(D)))
== canonicalize(D)`. -/
theorem canonicalization_perm_invariant (D1 D2 : DataFrame)
    (hcols : D2.cols.Perm D1.cols) (hrows : D2.rows.Perm D1.rows) :
    deterministic_csv_bytes D2 = deterministic_csv_bytes D1 := by
  have hcs : sortStrings D2.cols = sortStrings D1.cols :=
    insertionSort_eq_of_perm _ hcols
  simp only [deterministic_csv_bytes]
  rw [hcs]
  by_cases hempty : (sortStrings D1.cols).isEmpty = true
  · have hnil : sortStrings D1.cols = [] := by
      rwa [List.isEmpty_iff] at hempty
    rw [hnil]
    simp only [List.map_nil, List.isEmpty_nil, if_true]
    rw [map_to_nil_eq_replicate, map_to_nil_eq_replicate, hrows.length_eq]
  · rw [if_neg hempty, if_neg hempty]
    rw [insertionSort_eq_of_perm RowLeR
      (hrows.map (fun r => (sortStrings D1.cols).map (getCell r)))]

/-- First sample row. -/
def row1 : Row := [("a", some "1"), ("b", none)]

/-- Second sample row. -/
def row2 : Row := [("a", some "2"), ("b", some "y")]

/-- Witness for C6: shuffling both the columns and the rows of a concrete
dataset leaves the canonical bytes unchanged. -/
theorem canonicalization_perm_invariant_witness :
    deterministic_csv_bytes ⟨["a", "b"], [row2, row1]⟩ =
      deterministic_csv_bytes ⟨["b", "a"], [row1, row2]⟩ :=
  canonicalization_perm_invariant ⟨["b", "a"], [row1, row2]⟩
    ⟨["a", "b"], [row2, row1]⟩ (by decide) (by decide)

/-- C9 (amended): a dataset with zero rows canonicalizes to exactly the
header line (the sorted column names, minimally quoted, followed by the line
terminator); with zero columns as well the output is a single bare line
terminator `"\n"` — an empty header line, not an empty document. -/
theorem empty_dataset_header_only (D : DataFrame) (h : D.rows = []) :
    deterministic_csv_bytes D =
        renderLine ((sortStrings D.cols).map csvField) ++ "\n" ∧
      (D.cols = [] → deterministic_csv_bytes D = "\n") := by
  have hmain : deterministic_csv_bytes D =
      renderLine ((sortStrings D.cols).map csvField) ++ "\n" := by
    simp only [deterministic_csv_bytes, h, List.map_nil]
    have hsorted : (if (sortStrings D.cols).isEmpty then ([] : List (List (Option String)))
        else List.insertionSort RowLeR []) = [] := by
      by_cases he : (sortStrings D.cols).isEmpty = true
      · rw [if_pos he]
      · rw [if_neg he]; rfl
    rw [hsorted]
    show renderLine ((sortStrings D.cols).map csvField) ++ "\n" ++ renderLines [] =
      renderLine ((sortStrings D.cols).map csvField) ++ "\n"
    rw [show renderLines [] = "" from rfl, String.append_empty]
  refine ⟨hmain, fun hc => ?_⟩
  rw [hmain, hc]
  rfl

/-- Counterexample for C9 as stated: the fully empty dataset (zero rows and
zero columns) does not canonicalize to an empty document — the writer still
emits the (empty) header line followed by the line terminator. -/
theorem empty_dataset_header_only_cex :
    deterministic_csv_bytes ⟨[], []⟩ = "\n" ∧
      deterministic_csv_bytes ⟨[], []⟩ ≠ "" := by
  decide

/-- Witness for C9 (amended): a concrete zero-row dataset canonicalizes to
exactly its sorted header line. -/
theorem empty_dataset_header_only_witness :
    deterministic_csv_bytes ⟨["b", "a"], []⟩ =
      renderLine ((sortStrings ["b", "a"]).map csvField) ++ "\n" :=
  (empty_dataset_header_only ⟨["b", "a"], []⟩ rfl).1

end ETLChain
